import Mathlib

/-!
Verification of the keybinding core of `src/core/src/keymap.rs`.

The source file contains the capture-dialog widget `LapceKeymap`: its
`event` handler (KeyDown arm, lines 146-164) records chords into the
`active_keymap` buffer with ring-buffer-of-2 semantics, and its
`mouse_down` handler (lines 60-107) commits or cancels the capture
session.  Those parts are embedded below directly from the source.

The resolution engine (BindingTable, ChordMatcher, WhenClauseEvaluator)
is not part of this file of the repository; the definitions for it are
modelled from the spec, each marked `Modelled from the spec:` in its doc
comment.
-/

namespace Keymap

/-- Modifier-qualified key event: a single normalized key press.
Mirrors the KeyPress value consumed by the widget (field names from the
spec data model: physical key code plus the four modifiers). -/
structure KeyChord where
  key : Nat
  ctrl : Bool
  alt : Bool
  shift : Bool
  meta : Bool
  deriving DecidableEq, Repr

/-- Editor modes, as matched in the source paint code (lines 337-342). -/
inductive Mode where
  | Normal
  | Insert
  | Visual
  | Terminal
  deriving DecidableEq, Repr

/-- The KeyMap record of the source (command, key sequence, modes, when),
as constructed at lines 96-102 of keymap.rs. -/
structure KeyMap where
  command : String
  key : List KeyChord
  modes : List Mode
  whenClause : Option String
  deriving DecidableEq, Repr

/-- Chord recording step of the Event::KeyDown arm (keymap.rs lines
148-153): if the buffer already holds 2 chords it is cleared, then the
new chord is pushed. -/
def record_chord (keys : List KeyChord) (c : KeyChord) : List KeyChord :=
  let keys := if keys.length == 2 then [] else keys
  keys ++ [c]

/-- Result of the Event::KeyDown arm: the new capture state together with
a flag telling whether KeyPressData::key_down was invoked (the else
branch at lines 155-163 of keymap.rs). The Option KeyChord argument is
the result of KeyPressData::keypress on the raw event; None models a
key event that cannot be normalized into a chord. -/
def eventKeyDown (active : Option (KeyMap × List KeyChord))
    (keypressResult : Option KeyChord) :
    Option (KeyMap × List KeyChord) × Bool :=
  match active with
  | some (keymap, keys) =>
    match keypressResult with
    | some c => (some (keymap, record_chord keys c), false)
    | none => (some (keymap, keys), false)
  | none => (none, true)

/-- UI command submitted by the widget; the only one the capture dialog
emits is UpdateKeymap (keymap.rs lines 63-67). -/
inductive UICmd where
  | UpdateKeymap (keymap : KeyMap) (keys : List KeyChord)
  deriving DecidableEq, Repr

/-- Mouse-down handling while a capture session is active (keymap.rs
lines 61-75): a click in the confirm rect submits UpdateKeymap and ends
the session; a click in the cancel rect ends the session submitting
nothing; any other click is swallowed. Returns the new session state
and the list of submitted commands. -/
def mouse_down_active (keymap : KeyMap) (keys : List KeyChord)
    (inConfirm inCancel : Bool) :
    Option (KeyMap × List KeyChord) × List UICmd :=
  if inConfirm then (none, [UICmd.UpdateKeymap keymap keys])
  else if inCancel then (none, [])
  else (some (keymap, keys), [])

/-- Modelled from the spec: WhenExpr, the parsed boolean-expression tree
of the WhenClauseEvaluator (spec section 4.2); the evaluator itself is not
part of src/core/src/keymap.rs. -/
inductive WhenExpr where
  | flag (name : String)
  | not (e : WhenExpr)
  | and (a b : WhenExpr)
  | or (a b : WhenExpr)
  deriving DecidableEq, Repr

/-- Tokens of the when-clause language (operators and-and, or-or, bang,
parentheses, bare identifiers). -/
inductive Tok where
  | lpar
  | rpar
  | amps
  | bars
  | bang
  | ident (s : String)
  deriving DecidableEq, Repr

/-- Characters allowed in a flag identifier. -/
def isIdentChar (c : Char) : Bool :=
  c.isAlphanum || c == '_' || c == '.'

/-- Longest identifier-character run at the front of a character list,
together with the remainder. -/
def takeIdent : List Char → List Char × List Char
  | [] => ([], [])
  | c :: rest =>
    if isIdentChar c then
      let p := takeIdent rest
      (c :: p.1, p.2)
    else ([], c :: rest)

/-- Modelled from the spec: tokenizer of the when-clause text; fails on
any character outside the language. Fuel-indexed; the caller supplies
ample fuel. -/
def tokenize : Nat → List Char → Option (List Tok)
  | 0, _ => none
  | _, [] => some []
  | f + 1, c :: rest =>
    if c == ' ' then tokenize f rest
    else if c == '(' then (tokenize f rest).map (fun ts => Tok.lpar :: ts)
    else if c == ')' then (tokenize f rest).map (fun ts => Tok.rpar :: ts)
    else if c == '!' then (tokenize f rest).map (fun ts => Tok.bang :: ts)
    else if c == '&' then
      match rest with
      | '&' :: rest2 => (tokenize f rest2).map (fun ts => Tok.amps :: ts)
      | _ => none
    else if c == '|' then
      match rest with
      | '|' :: rest2 => (tokenize f rest2).map (fun ts => Tok.bars :: ts)
      | _ => none
    else if isIdentChar c then
      let p := takeIdent rest
      (tokenize f p.2).map (fun ts => Tok.ident (String.mk (c :: p.1)) :: ts)
    else none

mutual

/-- Modelled from the spec: recursive-descent parsing of an or-expression
(lowest precedence). Fuel-indexed. -/
def parseExpr : Nat → List Tok → Option (WhenExpr × List Tok)
  | 0, _ => none
  | f + 1, ts =>
    match parseAnd f ts with
    | none => none
    | some (a, ts1) => parseOrTail f a ts1

/-- Left-associated chain of or-or operators after a first operand. -/
def parseOrTail : Nat → WhenExpr → List Tok → Option (WhenExpr × List Tok)
  | 0, _, _ => none
  | f + 1, a, ts =>
    match ts with
    | Tok.bars :: ts1 =>
      match parseAnd f ts1 with
      | none => none
      | some (b, ts2) => parseOrTail f (WhenExpr.or a b) ts2
    | _ => some (a, ts)

/-- Parsing of an and-expression. -/
def parseAnd : Nat → List Tok → Option (WhenExpr × List Tok)
  | 0, _ => none
  | f + 1, ts =>
    match parseUnary f ts with
    | none => none
    | some (a, ts1) => parseAndTail f a ts1

/-- Left-associated chain of and-and operators after a first operand. -/
def parseAndTail : Nat → WhenExpr → List Tok → Option (WhenExpr × List Tok)
  | 0, _, _ => none
  | f + 1, a, ts =>
    match ts with
    | Tok.amps :: ts1 =>
      match parseUnary f ts1 with
      | none => none
      | some (b, ts2) => parseAndTail f (WhenExpr.and a b) ts2
    | _ => some (a, ts)

/-- Parsing of a unary expression: bang, identifier, or parenthesized
expression. -/
def parseUnary : Nat → List Tok → Option (WhenExpr × List Tok)
  | 0, _ => none
  | f + 1, ts =>
    match ts with
    | Tok.bang :: ts1 =>
      match parseUnary f ts1 with
      | none => none
      | some (a, ts2) => some (WhenExpr.not a, ts2)
    | Tok.ident s :: ts1 => some (WhenExpr.flag s, ts1)
    | Tok.lpar :: ts1 =>
      match parseExpr f ts1 with
      | none => none
      | some (a, ts2) =>
        match ts2 with
        | Tok.rpar :: ts3 => some (a, ts3)
        | _ => none
    | _ => none

end

/-- Identifiers mentioned by a when-expression. -/
def identsOf : WhenExpr → List String
  | WhenExpr.flag s => [s]
  | WhenExpr.not a => identsOf a
  | WhenExpr.and a b => identsOf a ++ identsOf b
  | WhenExpr.or a b => identsOf a ++ identsOf b

/-- Modelled from the spec: parse of a when-clause source string against
the list of known editor-state flag names. Fails on malformed text, on
trailing tokens, and on an unrecognized identifier (spec section 4.2). -/
def parseWhen (known : List String) (s : String) : Option WhenExpr :=
  match tokenize (s.toList.length + 1) s.toList with
  | none => none
  | some ts =>
    match parseExpr (3 * ts.length + 3) ts with
    | some (e, []) =>
      if (identsOf e).all (fun i => known.contains i) then some e else none
    | _ => none

/-- Evaluation of a when-expression under a flag valuation. -/
def evalExpr (val : String → Bool) : WhenExpr → Bool
  | WhenExpr.flag s => val s
  | WhenExpr.not a => !evalExpr val a
  | WhenExpr.and a b => evalExpr val a && evalExpr val b
  | WhenExpr.or a b => evalExpr val a || evalExpr val b

/-- Modelled from the spec: truth of an optional when-clause. None always
matches; a clause that fails to parse never matches (fails closed). -/
def when_matches (known : List String) (val : String → Bool) :
    Option String → Bool
  | none => true
  | some s =>
    match parseWhen known s with
    | some e => evalExpr val e
    | none => false

/-- State carried by the evaluator across resolution attempts: the set of
malformed clauses already reported. -/
structure EvalCtx where
  reported : List String
  deriving DecidableEq, Repr

/-- Modelled from the spec: clause evaluation that also reports parse
failures, once per distinct malformed clause (spec section 7). Returns
the match result, the updated context, and the freshly emitted reports. -/
def when_matches_report (known : List String) (val : String → Bool)
    (ctx : EvalCtx) (w : Option String) : Bool × EvalCtx × List String :=
  match w with
  | none => (true, ctx, [])
  | some s =>
    match parseWhen known s with
    | some e => (evalExpr val e, ctx, [])
    | none =>
      if ctx.reported.contains s then (false, ctx, [])
      else (false, ⟨s :: ctx.reported⟩, [s])

/-- Sequence of clause evaluations, accumulating the emitted reports. -/
def run_when_evals (known : List String) (val : String → Bool)
    (ctx : EvalCtx) : List (Option String) → EvalCtx × List String
  | [] => (ctx, [])
  | w :: ws =>
    let r := when_matches_report known val ctx w
    let rest := run_when_evals known val r.2.1 ws
    (rest.1, r.2.2 ++ rest.2)

/-- Modelled from the spec: a stored binding of the BindingTable; the
fromUser flag records its origin (user-defined versus default), which the
precedence rule of spec section 4.1 distinguishes. -/
structure KeyBinding where
  command : String
  chords : List KeyChord
  modes : List Mode
  whenClause : Option String
  fromUser : Bool
  deriving DecidableEq, Repr

/-- Modelled from the spec: the BindingTable, kept as the list of all
bindings in insertion order (earlier elements inserted earlier). -/
structure BindingTable where
  bindings : List KeyBinding
  deriving DecidableEq, Repr

/-- Modelled from the spec: lookup_candidates returns all bindings whose
first chord matches, regardless of mode and when (spec section 4.1). -/
def lookup_candidates (t : BindingTable) (c : KeyChord) : List KeyBinding :=
  t.bindings.filter (fun b => b.chords.head? == some c)

/-- Mode filter: an empty mode set means all modes (spec section 3). -/
def mode_ok (b : KeyBinding) (m : Mode) : Bool :=
  b.modes.isEmpty || b.modes.contains m

/-- Combined mode and when filter on a binding. -/
def passes (known : List String) (val : String → Bool) (m : Mode)
    (b : KeyBinding) : Bool :=
  mode_ok b m && when_matches known val b.whenClause

/-- Modelled from the spec: tie-break among candidates that pass the
filters (spec section 4.1): user-defined bindings beat defaults; among
bindings of equal origin the most-recently-inserted (last in insertion
order) wins. -/
def select_winner (bs : List KeyBinding) : Option KeyBinding :=
  match (bs.filter (fun b => b.fromUser)).getLast? with
  | some w => some w
  | none => bs.getLast?

/-- Candidates for a first chord that pass the mode and when filters, in
insertion order. -/
def filtered_candidates (t : BindingTable) (known : List String)
    (val : String → Bool) (m : Mode) (c : KeyChord) : List KeyBinding :=
  (lookup_candidates t c).filter (passes known val m)

/-- States of the ChordMatcher (spec section 4.3). -/
inductive MatcherState where
  | Idle
  | Pending (pcs : List KeyChord)
  deriving DecidableEq, Repr

/-- Terminal outcomes of one matcher step (spec section 4.3). -/
inductive Outcome where
  | Resolved (cmd : String)
  | Unmatched
  | StillPending
  deriving DecidableEq, Repr

/-- Modelled from the spec: one step of the ChordMatcher state machine
(spec section 4.3). In Idle, a passing 2-chord candidate starting with
the chord forces Pending (ambiguity rule: waiting is preferred over a
1-chord match on the same first chord); otherwise an exact 1-chord candidate
resolves; otherwise Unmatched. In Pending, only an exact full-sequence
candidate resolves; otherwise Unmatched; either way the state resets to
Idle. -/
def matcher_step (t : BindingTable) (known : List String)
    (val : String → Bool) (m : Mode) (st : MatcherState) (c : KeyChord) :
    MatcherState × Outcome :=
  match st with
  | MatcherState.Idle =>
    let cands := filtered_candidates t known val m c
    if !(cands.filter (fun b => b.chords.length == 2)).isEmpty then
      (MatcherState.Pending [c], Outcome.StillPending)
    else
      match select_winner (cands.filter (fun b => b.chords == [c])) with
      | some w => (MatcherState.Idle, Outcome.Resolved w.command)
      | none => (MatcherState.Idle, Outcome.Unmatched)
  | MatcherState.Pending pcs =>
    let cands := t.bindings.filter
      (fun b => b.chords == pcs ++ [c] && passes known val m b)
    match select_winner cands with
    | some w => (MatcherState.Idle, Outcome.Resolved w.command)
    | none => (MatcherState.Idle, Outcome.Unmatched)

/-- Mode-set overlap used by override; an empty set means all modes and
overlaps everything. -/
def modes_overlap (m1 m2 : List Mode) : Bool :=
  m1.isEmpty || m2.isEmpty || m1.any (fun m => m2.contains m)

/-- Shape equality driving override: same chord sequence, overlapping
mode sets, equal when-clause source text (spec section 4.1). -/
def same_shape (a b : KeyBinding) : Bool :=
  a.chords == b.chords && modes_overlap a.modes b.modes
    && a.whenClause == b.whenClause

/-- Modelled from the spec: insert_or_override replaces any existing
binding of the same shape in place, and otherwise appends the new
binding (spec section 4.1). -/
def insert_or_override (t : BindingTable) (b : KeyBinding) : BindingTable :=
  if t.bindings.any (fun x => same_shape b x) then
    ⟨t.bindings.map (fun x => if same_shape b x then b else x)⟩
  else ⟨t.bindings ++ [b]⟩

/-- Modelled from the spec: remove deletes the bindings keyed by command
and chord sequence; a no-op when absent (spec section 4.1). -/
def remove (t : BindingTable) (cmd : String) (chords : List KeyChord) :
    BindingTable :=
  ⟨t.bindings.filter (fun b => !(b.command == cmd && b.chords == chords))⟩

/-- Modelled from the spec: the handler of the UpdateKeymap command
submitted on confirm. A commit with zero recorded chords is normalized
to a removal of the binding of the target command; otherwise the
recorded chords become a user binding handed to insert_or_override
(spec sections 4.4 and 7). -/
def update_keymap (t : BindingTable) (km : KeyMap) (keys : List KeyChord) :
    BindingTable :=
  if keys.isEmpty then remove t km.command km.key
  else insert_or_override t ⟨km.command, keys, km.modes, km.whenClause, true⟩

/-- Effect of a list of submitted UI commands on the table. -/
def apply_cmds (t : BindingTable) (cs : List UICmd) : BindingTable :=
  cs.foldl
    (fun acc c =>
      match c with
      | UICmd.UpdateKeymap km keys => update_keymap acc km keys) t

/-! Concrete fixtures for witnesses. -/

/-- Concrete chord Ctrl+K. -/
def chordK : KeyChord := ⟨11, true, false, false, false⟩

/-- Concrete chord Ctrl+C. -/
def chordC : KeyChord := ⟨3, true, false, false, false⟩

/-- Concrete chord Ctrl+X, unrelated to the bindings below. -/
def chordX : KeyChord := ⟨24, true, false, false, false⟩

/-- Concrete 1-chord binding on Ctrl+K. -/
def bindA : KeyBinding := ⟨"cmdA", [chordK], [], none, false⟩

/-- Concrete 2-chord binding on Ctrl+K, Ctrl+C. -/
def bindB : KeyBinding := ⟨"cmdB", [chordK, chordC], [], none, false⟩

/-- Concrete table holding both bindings above. -/
def tableKC : BindingTable := ⟨[bindA, bindB]⟩

/-- Concrete flag valuation mapping every flag to false. -/
def valFalse : String → Bool := fun _ => false

/-- Concrete table with a default binding and a later user binding on
the same chord. -/
def tableUD : BindingTable :=
  ⟨[⟨"cmdA", [chordK], [], none, false⟩, ⟨"cmdB", [chordK], [], none, true⟩]⟩

/-! Helper lemmas. -/

/-- Membership of the optional last element of a list. -/
theorem mem_of_getLast?_eq {α : Type} {l : List α} {a : α}
    (h : l.getLast? = some a) : a ∈ l := by
  have hd := List.dropLast_append_getLast? a (by rw [h]; rfl)
  rw [← hd]
  exact List.mem_append_right _ (List.mem_singleton_self a)

/-- Decomposition of a list around the last element satisfying p: every
element after it fails p. -/
theorem filter_getLast?_decomp {α : Type} (p : α → Bool) (bs : List α)
    (w : α) (h : (bs.filter p).getLast? = some w) :
    ∃ l₁ l₂, bs = l₁ ++ w :: l₂ ∧ ∀ b ∈ l₂, p b = false := by
  induction bs using List.reverseRecOn with
  | nil => simp at h
  | append_singleton xs x ih =>
    rw [List.filter_append] at h
    by_cases hp : p x
    · rw [show List.filter p [x] = [x] by simp [hp]] at h
      rw [List.getLast?_concat] at h
      obtain rfl : x = w := Option.some.inj h
      exact ⟨xs, [], by simp, by simp⟩
    · rw [show List.filter p [x] = [] by simp [hp]] at h
      rw [List.append_nil] at h
      obtain ⟨l₁, l₂, hbs, hl₂⟩ := ih h
      refine ⟨l₁, l₂ ++ [x], by rw [hbs]; simp, ?_⟩
      intro b hb
      rcases List.mem_append.mp hb with h1 | h1
      · exact hl₂ b h1
      · rw [List.mem_singleton.mp h1]
        simpa using hp

/-- Specification of select_winner: on a nonempty candidate list it picks
a member; the winner is user-defined whenever any candidate is; and no
candidate of the same origin occurs after the winner in insertion
order. -/
theorem select_winner_spec (bs : List KeyBinding) (h : bs ≠ []) :
    ∃ w, select_winner bs = some w ∧ w ∈ bs ∧
      ((∃ b ∈ bs, b.fromUser = true) → w.fromUser = true) ∧
      ∃ l₁ l₂, bs = l₁ ++ w :: l₂ ∧ ∀ b ∈ l₂, b.fromUser ≠ w.fromUser := by
  cases hu : (bs.filter (fun b => b.fromUser)).getLast? with
  | some w =>
    have hsel : select_winner bs = some w := by simp [select_winner, hu]
    have hwf : w ∈ bs.filter (fun b => b.fromUser) := mem_of_getLast?_eq hu
    have hwmem : w ∈ bs := List.mem_of_mem_filter hwf
    have hwuser : w.fromUser = true := by simpa using List.of_mem_filter hwf
    obtain ⟨l₁, l₂, hbs, hl₂⟩ := filter_getLast?_decomp _ bs w hu
    refine ⟨w, hsel, hwmem, fun _ => hwuser, l₁, l₂, hbs, ?_⟩
    intro b hb
    rw [hwuser, hl₂ b hb]
    simp
  | none =>
    have hfe : bs.filter (fun b => b.fromUser) = [] :=
      List.getLast?_eq_none_iff.mp hu
    have hnouser : ∀ b ∈ bs, b.fromUser = false := by
      intro b hb
      by_contra hne
      have hbf : b ∈ bs.filter (fun b => b.fromUser) :=
        List.mem_filter.mpr ⟨hb, by simpa using hne⟩
      rw [hfe] at hbf
      simp at hbf
    cases hl : bs.getLast? with
    | none => exact absurd (List.getLast?_eq_none_iff.mp hl) h
    | some w =>
      have hsel : select_winner bs = some w := by simp [select_winner, hu, hl]
      have hwmem : w ∈ bs := mem_of_getLast?_eq hl
      have hdecomp := List.dropLast_append_getLast? w (by rw [hl]; rfl)
      refine ⟨w, hsel, hwmem, ?_, bs.dropLast, [], hdecomp.symm, by simp⟩
      rintro ⟨b, hb, hbu⟩
      rw [hnouser b hb] at hbu
      exact absurd hbu (by simp)

/-! Claim theorems. -/

/-- C1: recording a chord into a capture buffer that already holds 2
chords first clears the buffer and then appends the chord; recording the
sequence A, B, C into an initially empty buffer leaves exactly the last
chord C. -/
theorem recording_ring_buffer_of_two (keys : List KeyChord) (c : KeyChord)
    (h : keys.length = 2) :
    record_chord keys c = [c] ∧
      ∀ a b : KeyChord,
        record_chord (record_chord (record_chord [] a) b) c = [c] := by
  constructor
  · simp [record_chord, h]
  · intro a b
    simp [record_chord]

/-- Witness for C1 at a concrete 2-chord buffer. -/
theorem recording_ring_buffer_of_two_witness :
    record_chord [⟨1, false, false, false, false⟩,
        ⟨2, false, false, false, false⟩] ⟨3, false, false, false, false⟩ =
      [⟨3, false, false, false, false⟩] :=
  (recording_ring_buffer_of_two
    [⟨1, false, false, false, false⟩, ⟨2, false, false, false, false⟩]
    ⟨3, false, false, false, false⟩ (by decide)).1

/-- C8: a click on the cancel button of an active capture session
discards the session, submits no command, and leaves any binding table
unchanged. -/
theorem cancel_discards_session_table_unchanged (km : KeyMap)
    (keys : List KeyChord) (t : BindingTable) :
    mouse_down_active km keys false true = (none, []) ∧
      apply_cmds t (mouse_down_active km keys false true).2 = t := by
  exact ⟨rfl, rfl⟩

/-- C9: a key-down event during an active capture session whose key
cannot be normalized into a chord (keypress returns None) is a defined
no-op: the session and its recorded-chord buffer are unchanged and the
resolver is not invoked. -/
theorem unnormalizable_key_is_noop (km : KeyMap) (keys : List KeyChord) :
    eventKeyDown (some (km, keys)) none = (some (km, keys), false) := rfl

/-- C10: while a capture session is active every key-down event is
consumed by the recording buffer and the normal resolver key_down is
never invoked; key_down is invoked exactly when no session is active. -/
theorem capture_session_consumes_keys (km : KeyMap) (keys : List KeyChord)
    (kp : Option KeyChord) :
    (eventKeyDown (some (km, keys)) kp).2 = false ∧
      (eventKeyDown none kp).2 = true := by
  cases kp <;> exact ⟨rfl, rfl⟩

/-- C4: among the candidates passing the mode and when filters, the
table picks the winner by fixed precedence: any user-defined candidate
beats every default, among candidates of the same origin the
most-recently-inserted wins (no same-origin candidate occurs after the
winner in insertion order), and the selection is a function of the
filtered candidate list alone, so two runs on equal tables agree. -/
theorem precedence_deterministic_selection (t : BindingTable)
    (known : List String) (val : String → Bool) (m : Mode) (c : KeyChord)
    (h : filtered_candidates t known val m c ≠ []) :
    ∃ w, select_winner (filtered_candidates t known val m c) = some w ∧
      w ∈ filtered_candidates t known val m c ∧
      ((∃ b ∈ filtered_candidates t known val m c, b.fromUser = true) →
        w.fromUser = true) ∧
      (∃ l₁ l₂, filtered_candidates t known val m c = l₁ ++ w :: l₂ ∧
        ∀ b ∈ l₂, b.fromUser ≠ w.fromUser) ∧
      ∀ t₂ : BindingTable,
        filtered_candidates t₂ known val m c =
            filtered_candidates t known val m c →
          select_winner (filtered_candidates t₂ known val m c) = some w := by
  obtain ⟨w, hsel, hmem, huser, hdec⟩ :=
    select_winner_spec (filtered_candidates t known val m c) h
  exact ⟨w, hsel, hmem, huser, hdec, fun t₂ ht₂ => by rw [ht₂, hsel]⟩

/-- Witness for C4: a table holding a default and a later user binding
for the same chord; the instantiated conclusion holds. -/
theorem precedence_deterministic_selection_witness :
    filtered_candidates tableUD ["editorFocus"] valFalse Mode.Normal
        chordK ≠ [] ∧
    ∃ w, select_winner (filtered_candidates tableUD ["editorFocus"]
          valFalse Mode.Normal chordK) = some w ∧
      w ∈ filtered_candidates tableUD ["editorFocus"] valFalse
          Mode.Normal chordK ∧
      ((∃ b ∈ filtered_candidates tableUD ["editorFocus"] valFalse
          Mode.Normal chordK, b.fromUser = true) → w.fromUser = true) ∧
      (∃ l₁ l₂, filtered_candidates tableUD ["editorFocus"] valFalse
            Mode.Normal chordK = l₁ ++ w :: l₂ ∧
          ∀ b ∈ l₂, b.fromUser ≠ w.fromUser) ∧
      ∀ t₂ : BindingTable,
        filtered_candidates t₂ ["editorFocus"] valFalse Mode.Normal
            chordK =
          filtered_candidates tableUD ["editorFocus"] valFalse Mode.Normal
            chordK →
        select_winner (filtered_candidates t₂ ["editorFocus"] valFalse
          Mode.Normal chordK) = some w :=
  ⟨by decide,
    precedence_deterministic_selection tableUD ["editorFocus"] valFalse
      Mode.Normal chordK (by decide)⟩

/-- C2: with both a passing 1-chord binding on c1 and a passing 2-chord
binding on c1, c2 in the table (c1, c2 bound to cmdB, and every passing
binding on exactly that sequence bound to cmdB), feeding c1 in Idle
yields StillPending rather than resolving the 1-chord binding, and
feeding c2 afterwards resolves cmdB. -/
theorem ambiguous_chord_prefers_pending (t : BindingTable)
    (known : List String) (val : String → Bool) (m : Mode) (c1 c2 : KeyChord)
    (bA bB : KeyBinding) (cmdB : String)
    (hA : bA ∈ t.bindings) (hA1 : bA.chords = [c1])
    (hAp : passes known val m bA = true)
    (hB : bB ∈ t.bindings) (hB2 : bB.chords = [c1, c2])
    (hBp : passes known val m bB = true) (hBc : bB.command = cmdB)
    (hOnly : ∀ b ∈ t.bindings, b.chords = [c1, c2] →
      passes known val m b = true → b.command = cmdB) :
    matcher_step t known val m MatcherState.Idle c1 =
      (MatcherState.Pending [c1], Outcome.StillPending) ∧
    matcher_step t known val m (MatcherState.Pending [c1]) c2 =
      (MatcherState.Idle, Outcome.Resolved cmdB) := by
  constructor
  · have hmem : bB ∈ (filtered_candidates t known val m c1).filter
        (fun b => b.chords.length == 2) := by
      refine List.mem_filter.mpr ⟨?_, by rw [hB2]; rfl⟩
      refine List.mem_filter.mpr ⟨?_, hBp⟩
      exact List.mem_filter.mpr ⟨hB, by rw [hB2]; simp⟩
    have hcond : ((filtered_candidates t known val m c1).filter
        (fun b => b.chords.length == 2)).isEmpty = false := by
      have hne := List.ne_nil_of_mem hmem
      cases hl : (filtered_candidates t known val m c1).filter
          (fun b => b.chords.length == 2) with
      | nil => exact absurd hl hne
      | cons x xs => rfl
    simp [matcher_step, hcond]
  · have hmem : bB ∈ t.bindings.filter
        (fun b => b.chords == [c1] ++ [c2] && passes known val m b) := by
      refine List.mem_filter.mpr ⟨hB, ?_⟩
      rw [hB2, hBp]
      simp
    obtain ⟨w, hsel, hwmem, -, -⟩ :=
      select_winner_spec _ (List.ne_nil_of_mem hmem)
    have hw := List.mem_filter.mp hwmem
    have hw2 := hw.2
    simp only [Bool.and_eq_true, beq_iff_eq] at hw2
    have hcmd : w.command = cmdB :=
      hOnly w hw.1 (by rw [hw2.1]; rfl) hw2.2
    simp only [matcher_step]
    rw [hsel]
    simp [hcmd]

/-- C3: from Pending on c1, a second chord c3 such that no passing
binding has the exact sequence c1, c3 yields Unmatched and resets the
matcher to Idle; and after any terminal outcome (any outcome other than
StillPending) the matcher retains no pending chords. -/
theorem unrelated_second_chord_unmatched (t : BindingTable)
    (known : List String) (val : String → Bool) (m : Mode) (c1 c3 : KeyChord)
    (hNone : ∀ b ∈ t.bindings, passes known val m b = true →
      b.chords ≠ [c1, c3]) :
    matcher_step t known val m (MatcherState.Pending [c1]) c3 =
      (MatcherState.Idle, Outcome.Unmatched) ∧
    ∀ (st : MatcherState) (c : KeyChord),
      (matcher_step t known val m st c).2 ≠ Outcome.StillPending →
      (matcher_step t known val m st c).1 = MatcherState.Idle := by
  constructor
  · have hfe : t.bindings.filter
        (fun b => b.chords == [c1] ++ [c3] && passes known val m b) = [] := by
      apply List.filter_eq_nil_iff.mpr
      intro b hb hcontra
      simp only [Bool.and_eq_true, beq_iff_eq] at hcontra
      exact hNone b hb hcontra.2 (by rw [hcontra.1]; rfl)
    simp only [matcher_step]
    rw [hfe]
    rfl
  · intro st c hterm
    cases st with
    | Idle =>
      simp only [matcher_step] at hterm ⊢
      by_cases hcond :
          (!((filtered_candidates t known val m c).filter
            (fun b => b.chords.length == 2)).isEmpty) = true
      · rw [if_pos hcond] at hterm
        exact absurd rfl hterm
      · rw [if_neg hcond] at hterm ⊢
        cases hsel : select_winner ((filtered_candidates t known val m c).filter
            (fun b => b.chords == [c])) with
        | some w => rfl
        | none => rfl
    | Pending pcs =>
      simp only [matcher_step]
      cases hsel : select_winner (t.bindings.filter
          (fun b => b.chords == pcs ++ [c] && passes known val m b)) with
      | some w => rfl
      | none => rfl

/-- Witness for C2 at the concrete Ctrl+K / Ctrl+K Ctrl+C table. -/
theorem ambiguous_chord_prefers_pending_witness :
    matcher_step tableKC ["editorFocus"] valFalse Mode.Normal
        MatcherState.Idle chordK =
      (MatcherState.Pending [chordK], Outcome.StillPending) ∧
    matcher_step tableKC ["editorFocus"] valFalse Mode.Normal
        (MatcherState.Pending [chordK]) chordC =
      (MatcherState.Idle, Outcome.Resolved "cmdB") :=
  ambiguous_chord_prefers_pending tableKC ["editorFocus"] valFalse
    Mode.Normal chordK chordC bindA bindB "cmdB" (by decide) (by decide)
    (by decide) (by decide) (by decide) (by decide) (by decide) (by decide)

/-- Witness for C3 at the concrete table: Ctrl+K then Ctrl+X is
Unmatched and resets to Idle. -/
theorem unrelated_second_chord_unmatched_witness :
    matcher_step tableKC ["editorFocus"] valFalse Mode.Normal
        (MatcherState.Pending [chordK]) chordX =
      (MatcherState.Idle, Outcome.Unmatched) :=
  (unrelated_second_chord_unmatched tableKC ["editorFocus"] valFalse
    Mode.Normal chordK chordX (by decide)).1

/-- Reports are never repeated for a clause already in the reported
set. -/
theorem run_when_evals_already_reported (known : List String)
    (val : String → Bool) (ctx : EvalCtx) (s : String) (k : Nat)
    (hbad : parseWhen known s = none)
    (hmem : ctx.reported.contains s = true) :
    run_when_evals known val ctx (List.replicate k (some s)) = (ctx, []) := by
  induction k with
  | zero => rfl
  | succ k ih =>
    rw [List.replicate_succ]
    simp only [run_when_evals, when_matches_report, hbad, hmem]
    simp [ih]

/-- C5: a binding with no when clause always matches; a malformed or
unrecognized when clause never matches (fails closed) and its evaluation
is a defined total outcome; and the parse failure is reported exactly
once per distinct malformed clause over any number of evaluations, not
once per evaluation. -/
theorem when_clause_fails_closed (known : List String) (val : String → Bool)
    (ctx : EvalCtx) (s : String) (n : Nat)
    (hbad : parseWhen known s = none) (hn : 1 ≤ n) :
    when_matches known val none = true ∧
    when_matches known val (some s) = false ∧
    (when_matches_report known val ctx (some s)).1 = false ∧
    (run_when_evals known val ⟨[]⟩ (List.replicate n (some s))).2 = [s] := by
  refine ⟨rfl, ?_, ?_, ?_⟩
  · simp [when_matches, hbad]
  · simp only [when_matches_report, hbad]
    by_cases hc : s ∈ ctx.reported <;> simp [hc]
  · obtain ⟨k, rfl⟩ : ∃ k, n = k + 1 :=
      ⟨n - 1, (Nat.succ_pred_eq_of_pos hn).symm⟩
    rw [List.replicate_succ]
    simp only [run_when_evals, when_matches_report, hbad]
    have hnc : (EvalCtx.mk []).reported.contains s = false := rfl
    simp only [hnc]
    have hrest := run_when_evals_already_reported known val ⟨[s]⟩ s k hbad
      (by simp)
    simp [hrest]

/-- Witness for C5: the malformed clause of two opening parentheses,
evaluated twice, is reported once. -/
theorem when_clause_fails_closed_witness :
    when_matches ["editorFocus"] valFalse (some "((") = false ∧
    (run_when_evals ["editorFocus"] valFalse ⟨[]⟩
      (List.replicate 2 (some "(("))).2 = ["(("] := by
  have h := when_clause_fails_closed ["editorFocus"] valFalse ⟨[]⟩ "((" 2
    (by decide) (by decide)
  exact ⟨h.2.1, h.2.2.2⟩

/-- Mode-set overlap is reflexive (an empty set counts as all modes). -/
theorem modes_overlap_self (ms : List Mode) : modes_overlap ms ms = true := by
  cases ms with
  | nil => rfl
  | cons x xs =>
    simp only [modes_overlap, List.any_eq_true, Bool.or_eq_true]
    simp only [List.isEmpty_cons, Bool.false_eq_true, false_or]
    exact ⟨x, List.mem_cons_self x xs, by simp⟩

/-- Shape equality is reflexive. -/
theorem same_shape_refl (b : KeyBinding) : same_shape b b = true := by
  simp [same_shape, modes_overlap_self]

/-- Shape equality forces an identical chord sequence. -/
theorem same_shape_chords {a b : KeyBinding} (h : same_shape a b = true) :
    b.chords = a.chords := by
  simp only [same_shape, Bool.and_eq_true, beq_iff_eq] at h
  exact h.1.1.symm

/-- C6: insert_or_override replaces an existing binding exactly when it
has the same chord sequence, an overlapping mode set, and equal
when-clause text (same shape): with no same-shape binding present the
new binding is appended alongside; bindings of a different shape
survive; a same-shape binding is replaced (it disappears, the new
binding is present, and the table size is unchanged); and when exactly
one binding of that shape existed, lookup_candidates afterwards returns
exactly one binding of that shape, the new one. -/
theorem insert_or_override_shape (t : BindingTable) (b : KeyBinding) :
    ((∀ x ∈ t.bindings, same_shape b x = false) →
      (insert_or_override t b).bindings = t.bindings ++ [b]) ∧
    (∀ x ∈ t.bindings, same_shape b x = false →
      x ∈ (insert_or_override t b).bindings) ∧
    (∀ x ∈ t.bindings, same_shape b x = true → x ≠ b →
      x ∉ (insert_or_override t b).bindings) ∧
    (∀ x ∈ t.bindings, same_shape b x = true →
      b ∈ (insert_or_override t b).bindings ∧
      (insert_or_override t b).bindings.length = t.bindings.length) ∧
    (∀ c : KeyChord,
      (t.bindings.filter (fun x => same_shape b x)).length = 1 →
      b.chords.head? = some c →
      ((lookup_candidates (insert_or_override t b) c).filter
          (fun x => same_shape b x)).length = 1 ∧
      b ∈ lookup_candidates (insert_or_override t b) c) := by
  refine ⟨?_, ?_, ?_, ?_, ?_⟩
  · intro h
    have hany : t.bindings.any (fun x => same_shape b x) = false :=
      List.any_eq_false.mpr (by
        intro x hx
        rw [h x hx]
        simp)
    simp [insert_or_override, hany]
  · intro x hx hfalse
    by_cases hany : t.bindings.any (fun x => same_shape b x) = true
    · simp only [insert_or_override, hany, if_true]
      exact List.mem_map.mpr ⟨x, hx, by simp [hfalse]⟩
    · rw [Bool.not_eq_true] at hany
      simp only [insert_or_override, hany]
      simp only [Bool.false_eq_true, if_false]
      exact List.mem_append_left _ hx
  · intro x hx htrue hne hmemr
    have hany : t.bindings.any (fun x => same_shape b x) = true :=
      List.any_eq_true.mpr ⟨x, hx, htrue⟩
    simp only [insert_or_override, hany, if_true] at hmemr
    obtain ⟨y, hy, hfy⟩ := List.mem_map.mp hmemr
    by_cases hsy : same_shape b y = true
    · rw [if_pos hsy] at hfy
      exact hne hfy.symm
    · rw [if_neg hsy] at hfy
      rw [Bool.not_eq_true] at hsy
      rw [hfy] at hsy
      rw [htrue] at hsy
      exact absurd hsy (by simp)
  · intro x hx htrue
    have hany : t.bindings.any (fun x => same_shape b x) = true :=
      List.any_eq_true.mpr ⟨x, hx, htrue⟩
    simp only [insert_or_override, hany, if_true]
    exact ⟨List.mem_map.mpr ⟨x, hx, by simp [htrue]⟩, List.length_map ..⟩
  · intro c hcount hhead
    obtain ⟨y, hy⟩ := List.length_eq_one.mp hcount
    have hymem : y ∈ t.bindings.filter (fun x => same_shape b x) := by
      rw [hy]
      exact List.mem_singleton_self y
    have hyt : y ∈ t.bindings := List.mem_of_mem_filter hymem
    have hyp : same_shape b y = true := List.of_mem_filter hymem
    have hany : t.bindings.any (fun x => same_shape b x) = true :=
      List.any_eq_true.mpr ⟨y, hyt, hyp⟩
    have hres : (insert_or_override t b).bindings =
        t.bindings.map (fun x => if same_shape b x then b else x) := by
      simp [insert_or_override, hany]
    have hpf : ((fun x => same_shape b x) ∘
          (fun x => if same_shape b x then b else x)) =
        (fun x => same_shape b x) := by
      funext x
      simp only [Function.comp]
      by_cases hx : same_shape b x = true
      · simp [hx, same_shape_refl]
      · rw [Bool.not_eq_true] at hx
        simp [hx]
    have hcount2 : ((insert_or_override t b).bindings.filter
        (fun x => same_shape b x)).length = 1 := by
      rw [hres, List.filter_map, List.length_map, hpf, hcount]
    have hbmem : b ∈ (insert_or_override t b).bindings := by
      rw [hres]
      exact List.mem_map.mpr ⟨y, hyt, by simp [hyp]⟩
    have hlookup : (lookup_candidates (insert_or_override t b) c).filter
        (fun x => same_shape b x) =
        (insert_or_override t b).bindings.filter
          (fun x => same_shape b x) := by
      unfold lookup_candidates
      rw [List.filter_filter]
      apply List.filter_congr
      intro x hx
      by_cases hsx : same_shape b x = true
      · have hxc : x.chords = b.chords := same_shape_chords hsx
        simp [hsx, hxc, hhead]
      · rw [Bool.not_eq_true] at hsx
        simp [hsx]
    refine ⟨by rw [hlookup]; exact hcount2, ?_⟩
    exact List.mem_filter.mpr ⟨hbmem, by simp [hhead]⟩

/-- Witness for C6: overriding the concrete default 1-chord binding with
an identically shaped user binding leaves exactly one binding of that
shape, the user one. -/
theorem insert_or_override_shape_witness :
    ((lookup_candidates
        (insert_or_override ⟨[bindA]⟩ ⟨"cmdA", [chordK], [], none, true⟩)
        chordK).filter
      (fun x => same_shape ⟨"cmdA", [chordK], [], none, true⟩ x)).length = 1 ∧
    (⟨"cmdA", [chordK], [], none, true⟩ : KeyBinding) ∈
      lookup_candidates
        (insert_or_override ⟨[bindA]⟩ ⟨"cmdA", [chordK], [], none, true⟩)
        chordK :=
  (insert_or_override_shape ⟨[bindA]⟩
    ⟨"cmdA", [chordK], [], none, true⟩).2.2.2.2 chordK (by decide) (by decide)

/-- C7: committing a capture session with zero recorded chords on a
previously-bound command is normalized to a removal: no binding with the
target command and chord sequence survives, and when the target binding
was the only binding of its command, lookup afterwards returns no
candidate for that command at all. -/
theorem zero_chord_commit_removes (t : BindingTable) (km : KeyMap)
    (hbound : ∃ b ∈ t.bindings,
      b.command = km.command ∧ b.chords = km.key) :
    (∀ b ∈ (update_keymap t km []).bindings,
      ¬(b.command = km.command ∧ b.chords = km.key)) ∧
    ((∀ b ∈ t.bindings, b.command = km.command → b.chords = km.key) →
      ∀ (c : KeyChord) (b : KeyBinding),
        b ∈ lookup_candidates (update_keymap t km []) c →
        b.command ≠ km.command) := by
  have hupd : (update_keymap t km []).bindings =
      t.bindings.filter
        (fun b => !(b.command == km.command && b.chords == km.key)) := by
    simp [update_keymap, remove]
  constructor
  · intro b hb hcontra
    rw [hupd] at hb
    have hflt := List.of_mem_filter hb
    simp [hcontra.1, hcontra.2] at hflt
  · intro honly c b hb hcmd
    have hbm : b ∈ (update_keymap t km []).bindings :=
      List.mem_of_mem_filter hb
    have hbt : b ∈ t.bindings := by
      rw [hupd] at hbm
      exact List.mem_of_mem_filter hbm
    have hchords : b.chords = km.key := honly b hbt hcmd
    rw [hupd] at hbm
    have hflt := List.of_mem_filter hbm
    simp [hcmd, hchords] at hflt

/-- Witness for C7: committing zero chords on the concrete bound command
removes its binding from the table. -/
theorem zero_chord_commit_removes_witness :
    bindA ∉ (update_keymap ⟨[bindA]⟩
      ⟨"cmdA", [chordK], [], none⟩ []).bindings := by
  intro hmem
  exact (zero_chord_commit_removes ⟨[bindA]⟩ ⟨"cmdA", [chordK], [], none⟩
    ⟨bindA, List.mem_singleton_self bindA, rfl, rfl⟩).1 bindA hmem ⟨rfl, rfl⟩

end Keymap
